import Mathlib

/-!
Verification of the vtt-to-op47 WST / OP-47 encoding pipeline.

Shallow embedding of the repository's JavaScript sources:
  - x26-encoder.js        (X/26 enhancement encoder, Czech composition table)
  - wst-encoder.js        (WST page encoder: header, display rows, framing)
  - titling-engine.js     (cue segmenter)
  - vtt-parser.js         (WebVTT cue parser)
  - server tick loop      (playback scheduler tick and HTTP request validation)

JavaScript strings are modelled as lists of characters, numbers as Nat, Int
or Rat as appropriate, and code that can throw returns Option.
-/

/-- ETS 300 706 enhancement triplet as accumulated by the X/26 encoder:
the mode, address and data fields exactly as they are pushed by encodeRow
(field masking to 5/6/7 bits happens later, in packEnhancement). -/
structure Triplet where
  mode : Nat
  address : Nat
  data : Nat
deriving Repr, DecidableEq

/-- x26-encoder.js Mode.SetActivePosition -/
def ModeSetActivePosition : Nat := 0x04

/-- x26-encoder.js Mode.DiacriticBase -/
def ModeDiacriticBase : Nat := 0x11

/-- x26-encoder.js Mode.G2Character -/
def ModeG2Character : Nat := 0x0f

/-- x26-encoder.js Mode.TerminationMarker -/
def ModeTerminationMarker : Nat := 0x1f

/-- x26-encoder.js DiacriticIndex.Acute -/
def DiacriticIndexAcute : Nat := 2

/-- x26-encoder.js DiacriticIndex.Ring -/
def DiacriticIndexRing : Nat := 10

/-- x26-encoder.js DiacriticIndex.Caron -/
def DiacriticIndexCaron : Nat := 15

/-- Caron encoding strategy (x26-encoder.js opts.caronEncoding). -/
inductive CaronEncoding
  | compose
  | g2
deriving Repr, DecidableEq

/-- G2 code-set variant (x26-encoder.js opts.g2Variant). -/
inductive G2Variant
  | default
  | alt1
  | alt2
  | iso88592
deriving Repr, DecidableEq

/-- One row of G2_CARON_SETS: the 7-bit codes for the caron letters,
lower case then upper case, in the canonical order. -/
structure G2CaronSet where
  lower : List Nat
  upper : List Nat
deriving Repr, DecidableEq

/-- x26-encoder.js G2_CARON_SETS -/
def G2_CARON_SETS (v : G2Variant) : G2CaronSet :=
  match v with
  | .default => ⟨[0x62, 0x64, 0x65, 0x6e, 0x72, 0x73, 0x74, 0x7a],
                 [0x42, 0x44, 0x45, 0x4e, 0x52, 0x53, 0x54, 0x5a]⟩
  | .alt1 => ⟨[0x63, 0x64, 0x65, 0x6e, 0x72, 0x73, 0x74, 0x79],
              [0x43, 0x44, 0x45, 0x4e, 0x52, 0x53, 0x54, 0x59]⟩
  | .alt2 => ⟨[0x68, 0x6a, 0x6b, 0x70, 0x78, 0x79, 0x7a, 0x7e],
              [0x48, 0x4a, 0x4b, 0x50, 0x58, 0x59, 0x5a, 0x5e]⟩
  | .iso88592 => ⟨[0x68, 0x6f, 0x6c, 0x72, 0x78, 0x39, 0x3b, 0x2e],
                  [0x48, 0x4f, 0x4c, 0x52, 0x58, 0x28, 0x2b, 0x2c]⟩

/-- Constructor options of X26Encoder.  JS fields may be absent, hence Option;
the defaults applied in buildCzechMap are caronEncoding "compose",
caronDiacriticIndex 15 and g2Variant "default". -/
structure X26Opts where
  caronEncoding : Option CaronEncoding := none
  caronDiacriticIndex : Option Nat := none
  g2Variant : Option G2Variant := none
deriving Repr, DecidableEq

/-- One value of the Czech composition map built by buildCzechMap. -/
structure CzechEntry where
  base : Char
  diacritic : Nat
  g2 : Option Nat
  useCompose : Bool
  caronDiacriticIndex : Option Nat := none
deriving Repr, DecidableEq

/-- x26-encoder.js: the acuteRing table of buildCzechMap
(letter, base letter, diacritic index). -/
def acuteRing : List (Char × Char × Nat) :=
  [('á', 'a', DiacriticIndexAcute), ('é', 'e', DiacriticIndexAcute), ('í', 'i', DiacriticIndexAcute),
   ('ó', 'o', DiacriticIndexAcute), ('ú', 'u', DiacriticIndexAcute), ('ý', 'y', DiacriticIndexAcute),
   ('ů', 'u', DiacriticIndexRing),
   ('Á', 'A', DiacriticIndexAcute), ('É', 'E', DiacriticIndexAcute), ('Í', 'I', DiacriticIndexAcute),
   ('Ó', 'O', DiacriticIndexAcute), ('Ú', 'U', DiacriticIndexAcute), ('Ý', 'Y', DiacriticIndexAcute),
   ('Ů', 'U', DiacriticIndexRing)]

/-- x26-encoder.js CARON_LETTERS together with the caronBase table
(letter, base letter), canonical order. -/
def caronBaseList : List (Char × Char) :=
  [('č', 'c'), ('ď', 'd'), ('ě', 'e'), ('ň', 'n'), ('ř', 'r'), ('š', 's'), ('ť', 't'), ('ž', 'z')]

/-- x26-encoder.js CARON_LETTERS_UC together with the caronBaseUC table. -/
def caronBaseUCList : List (Char × Char) :=
  [('Č', 'C'), ('Ď', 'D'), ('Ě', 'E'), ('Ň', 'N'), ('Ř', 'R'), ('Š', 'S'), ('Ť', 'T'), ('Ž', 'Z')]

/-- x26-encoder.js buildCzechMap.  The JS Map is modelled as an association
list; all inserted keys are distinct, so lookup agrees with Map.get.
caronG2 indexes the G2 set by the letter's position in CARON_LETTERS(_UC),
which is realised here by zipping the letter list with the code list. -/
def buildCzechMap (opts : X26Opts) : List (Char × CzechEntry) :=
  let caronEncoding := opts.caronEncoding.getD .compose
  let caronDiacriticIndex := max 1 (min 15 (opts.caronDiacriticIndex.getD 15))
  let g2Set := G2_CARON_SETS (opts.g2Variant.getD .default)
  acuteRing.map (fun p =>
    (p.1, { base := p.2.1, diacritic := p.2.2, g2 := none, useCompose := true }))
  ++ (caronBaseList.zip g2Set.lower).map (fun p =>
    (p.1.1, { base := p.1.2, diacritic := DiacriticIndexCaron,
              g2 := if caronEncoding = .g2 then some p.2 else none,
              useCompose := caronEncoding = .compose,
              caronDiacriticIndex := some caronDiacriticIndex }))
  ++ (caronBaseUCList.zip g2Set.upper).map (fun p =>
    (p.1.1, { base := p.1.2, diacritic := DiacriticIndexCaron,
              g2 := if caronEncoding = .g2 then some p.2 else none,
              useCompose := caronEncoding = .compose,
              caronDiacriticIndex := some caronDiacriticIndex }))

/-- czechMap.get, i.e. JS Map lookup on the association list. -/
def czechGet (m : List (Char × CzechEntry)) (c : Char) : Option CzechEntry :=
  m.lookup c

/-- Modelled from the spec: bit-utils.js is not part of the sources; the spec
fixes the triplet field widths (address 6 bits, mode 5 bits, data 7 bits), so
bitmask n is the mask of the low n bits. -/
def bitmask (n : Nat) : Nat := 2 ^ n - 1

/-- x26-encoder.js packEnhancement: 18-bit triplet value
address | (mode << 6) | (data << 11). -/
def packEnhancement (mode address data : Nat) : Nat :=
  (address &&& bitmask 6) |||
  ((mode &&& bitmask 5) <<< 6) |||
  ((data &&& bitmask 7) <<< 11)

/-- The triplet pushed for one mapped character at column col
(the body of the encodeRow loop after the SetActivePosition push). -/
def charTriplet (entry : CzechEntry) (col : Nat) : Triplet :=
  if entry.useCompose then
    { mode := ModeDiacriticBase + ((entry.caronDiacriticIndex.getD entry.diacritic) - 1),
      address := col,
      data := entry.base.toNat &&& 0x7f }
  else
    match entry.g2 with
    | some g => { mode := ModeG2Character, address := col, data := g &&& 0x7f }
    | none =>
      { mode := ModeDiacriticBase + (entry.diacritic - 1),
        address := col,
        data := entry.base.toNat &&& 0x7f }

/-- ETS 300 706 12.3.2 row address used by encodeRow:
row 24 = address 40, rows 1 to 23 = addresses 41 to 63. -/
def rowAddressOf (rowLocation : Nat) : Nat :=
  if rowLocation = 24 then 40 else 40 + rowLocation

/-- The loop of X26Encoder.encodeRow: walks the row characters carrying the
current column and the firstEnhancement flag, returns the transformed row and
the list of triplets pushed to the enhancement accumulator by this call. -/
def encodeRowGo (m : List (Char × CzechEntry)) (rowAddress : Nat) :
    List Char → Nat → Bool → List Char × List Triplet
  | [], _, _ => ([], [])
  | ch :: rest, col, first =>
    match czechGet m ch with
    | none =>
      let r := encodeRowGo m rowAddress rest (col + 1) first
      (ch :: r.1, r.2)
    | some entry =>
      let newCh := if entry.g2 ≠ none then ' ' else entry.base
      let sap : List Triplet :=
        if first then [{ mode := ModeSetActivePosition, address := rowAddress, data := 0 }] else []
      let r := encodeRowGo m rowAddress rest (col + 1) false
      (newCh :: r.1, sap ++ charTriplet entry col :: r.2)

/-- X26Encoder.encodeRow: returns the transformed row and the triplets this
call appends to the encoder's enhancement list. -/
def encodeRow (opts : X26Opts) (str : List Char) (rowLocation : Nat) :
    List Char × List Triplet :=
  encodeRowGo (buildCzechMap opts) (rowAddressOf rowLocation) str 0 true

/-- Abbreviation for the per-position triplet map used in the closed form of
encodeRow: position p yields a triplet exactly when the character is in the
composition map. -/
def tripletAt (m : List (Char × CzechEntry)) (p : Nat × Char) : Option Triplet :=
  (czechGet m p.2).map (fun e => charTriplet e p.1)

lemma encodeRowGo_snd_false (m : List (Char × CzechEntry)) (ra : Nat) :
    ∀ (str : List Char) (col : Nat),
      (encodeRowGo m ra str col false).2 =
        (List.enumFrom col str).filterMap (tripletAt m) := by
  intro str
  induction str with
  | nil => intro col; simp [encodeRowGo]
  | cons ch rest ih =>
    intro col
    cases h : czechGet m ch with
    | none =>
      simp [encodeRowGo, h, List.enumFrom, List.filterMap_cons, tripletAt, ih]
    | some e =>
      simp [encodeRowGo, h, List.enumFrom, List.filterMap_cons, tripletAt, ih]

lemma encodeRowGo_snd_true (m : List (Char × CzechEntry)) (ra : Nat) :
    ∀ (str : List Char) (col : Nat),
      (encodeRowGo m ra str col true).2 =
        if str.any (fun ch => (czechGet m ch).isSome) then
          { mode := ModeSetActivePosition, address := ra, data := 0 } ::
            (List.enumFrom col str).filterMap (tripletAt m)
        else [] := by
  intro str
  induction str with
  | nil => intro col; simp [encodeRowGo]
  | cons ch rest ih =>
    intro col
    cases h : czechGet m ch with
    | none =>
      simp [encodeRowGo, h, List.enumFrom, List.filterMap_cons, tripletAt, ih,
        List.any_cons]
    | some e =>
      simp [encodeRowGo, h, List.enumFrom, List.filterMap_cons, tripletAt,
        List.any_cons, encodeRowGo_snd_false]

/-- C1: For every row with rowLocation in 1..24 containing at least one
composition-table character, encodeRow pushes exactly one SetActivePosition
triplet (mode 0x04, data 0, address 40 for row 24, else 40 + rowLocation)
first, and then, per mapped character at 0-based column c, exactly one
triplet with address = c whose mode, in compose mode, is
0x11 + (diacritic_index - 1) and whose data is the 7-bit code of the base
letter. -/
theorem x26_encodeRow_setActivePosition_first (opts : X26Opts) (str : List Char)
    (rowLocation : Nat) (h1 : 1 ≤ rowLocation) (h2 : rowLocation ≤ 24)
    (h3 : str.any (fun ch => (czechGet (buildCzechMap opts) ch).isSome) = true) :
    (encodeRow opts str rowLocation).2 =
      { mode := 0x04, address := if rowLocation = 24 then 40 else 40 + rowLocation, data := 0 } ::
      (List.enumFrom 0 str).filterMap (fun p =>
        (czechGet (buildCzechMap opts) p.2).map (fun e =>
          if e.useCompose then
            { mode := 0x11 + ((e.caronDiacriticIndex.getD e.diacritic) - 1),
              address := p.1, data := e.base.toNat &&& 0x7f }
          else
            match e.g2 with
            | some g => { mode := 0x0f, address := p.1, data := g &&& 0x7f }
            | none =>
              { mode := 0x11 + (e.diacritic - 1), address := p.1,
                data := e.base.toNat &&& 0x7f })) := by
  unfold encodeRow
  rw [encodeRowGo_snd_true _ _ str 0]
  simp only [h3, if_true]
  rfl

/-- Witness for C1 at a concrete input: row with an acute letter and a caron
letter at rowLocation 24. -/
theorem x26_encodeRow_setActivePosition_first_witness :
    (encodeRow {} ['á', 'č'] 24).2 =
      [{ mode := 0x04, address := 40, data := 0 },
       { mode := 0x12, address := 0, data := 0x61 },
       { mode := 0x1f, address := 1, data := 0x63 }] := by
  rw [x26_encodeRow_setActivePosition_first {} ['á', 'č'] 24
    (by decide) (by decide) (by decide)]
  decide

/-- Modelled from the spec: parity.js is missing from the sources.  Spec 4.1:
the Hamming 8/4 encoder maps a 4-bit nibble to one 8-bit byte via the 16-entry
codeword table of ETS 300 706. -/
def hammingEncodeNybble (d : Nat) : Nat :=
  [0x15, 0x02, 0x49, 0x5e, 0x64, 0x73, 0x38, 0x2f,
   0xd0, 0xc7, 0x8c, 0x9b, 0xa1, 0xb6, 0xfd, 0xea].getD (d % 16) 0

/-- The 1-indexed bit positions of the 18 data bits D1..D18 inside the 24-bit
Hamming 24/18 codeword (ETS 300 706 8.3). -/
def ham24DataPositions : List Nat :=
  [3, 5, 6, 7, 9, 10, 11, 12, 13, 14, 15, 17, 18, 19, 20, 21, 22, 23]

/-- Modelled from the spec: parity.js is missing from the sources.  Spec 4.1:
Hamming 24/18 maps an 18-bit value to three bytes: data bits at the positions
of ham24DataPositions, parity bits P1, P2, P3, P4, P5 at positions 1, 2, 4, 8,
16 covering the standard Hamming groups with even parity, P6 at position 24
making the whole word even parity, bytes emitted LSB-first. -/
def hammingEncode24 (v : Nat) : List Nat :=
  let dbit := fun (i : Nat) => (v >>> i) &&& 1
  let b : Nat → Nat := fun pos =>
    match ham24DataPositions.findIdx? (fun q => q = pos) with
    | some i => dbit i
    | none => 0
  let parityOver : List Nat → Nat := fun ps => ((ps.map b).sum) % 2
  let p1 := parityOver [3, 5, 7, 9, 11, 13, 15, 17, 19, 21, 23]
  let p2 := parityOver [3, 6, 7, 10, 11, 14, 15, 18, 19, 22, 23]
  let p3 := parityOver [5, 6, 7, 12, 13, 14, 15, 20, 21, 22, 23]
  let p4 := parityOver [9, 10, 11, 12, 13, 14, 15]
  let p5 := parityOver [17, 18, 19, 20, 21, 22, 23]
  let bit : Nat → Nat := fun pos =>
    if pos = 1 then p1 else if pos = 2 then p2 else if pos = 4 then p3
    else if pos = 8 then p4 else if pos = 16 then p5 else b pos
  let p6 := (((List.range' 1 23).map bit).sum) % 2
  let fullBit : Nat → Nat := fun pos => if pos = 24 then p6 else bit pos
  let byte : Nat → Nat :=
    fun j => (List.range 8).foldl (fun acc k => acc + (fullBit (8 * j + k + 1) <<< k)) 0
  [byte 0, byte 1, byte 2]

/-- x26-encoder.js X26Encoder.#encodeX26Packet: Hamming 8/4 of the packet
number, then the Hamming 24/18 bytes of each accumulated triplet, then
termination-marker fillers up to 13 triplets (data 0x00, last filler 0xff). -/
def encodeX26Packet (packetNumber : Nat) (enhancements : List Triplet) : List Nat :=
  hammingEncodeNybble packetNumber ::
    (enhancements.flatMap (fun e => hammingEncode24 (packEnhancement e.mode e.address e.data))
     ++ (if enhancements.length < 13 then
           (List.range' 1 (13 - enhancements.length)).flatMap (fun i =>
             hammingEncode24 (packEnhancement ModeTerminationMarker 0x3f
               (if i = 13 - enhancements.length then 0xff else 0x00)))
         else []))

/-- x26-encoder.js enhancementPackets getter: chunk the accumulated
enhancements into groups of 13 (slice (i*13, (i+1)*13) for
i < ceil (length / 13)) and build one X/26 packet per chunk. -/
def enhancementPackets (enh : List Triplet) : List (List Nat) :=
  (List.range ((enh.length + 12) / 13)).map (fun i =>
    encodeX26Packet i ((enh.drop (i * 13)).take 13))

lemma flatMap_map_eq {α β γ : Type} (l : List α) (g : α → β) (f : β → List γ) :
    (l.map g).flatMap f = l.flatMap (fun a => f (g a)) := by
  induction l with
  | nil => simp
  | cons a t ih => simp [ih]

lemma encodeX26Packet_as_padded (n : Nat) (es : List Triplet) :
    encodeX26Packet n es =
      hammingEncodeNybble n ::
        (es ++ (List.range' 1 (13 - es.length)).map (fun k =>
          ({ mode := 0x1f, address := 0x3f,
             data := if k = 13 - es.length then 0xff else 0x00 } : Triplet))).flatMap
          (fun t => hammingEncode24 (packEnhancement t.mode t.address t.data)) := by
  by_cases h : es.length < 13
  · simp only [encodeX26Packet, if_pos h, List.flatMap_append, flatMap_map_eq]
    rfl
  · have h0 : 13 - es.length = 0 := by omega
    simp [encodeX26Packet, if_neg h, h0, ModeTerminationMarker]

/-- C2: every X/26 packet produced by the enhancementPackets getter encodes
exactly 13 triplets: the accumulated triplets of its 13-element chunk followed
by TerminationMarker fillers (mode 0x1f, address 0x3f), every filler with data
0x00 except the last, which carries 0xff; a full chunk of 13 receives no
fillers. -/
theorem x26_enhancementPackets_thirteen_triplets (enh : List Triplet) (i : Nat)
    (h : i < (enh.length + 12) / 13) :
    (enhancementPackets enh).get? i =
      some (hammingEncodeNybble i ::
        (((enh.drop (i * 13)).take 13) ++
          (List.range' 1 (13 - ((enh.drop (i * 13)).take 13).length)).map (fun k =>
            ({ mode := 0x1f, address := 0x3f,
               data := if k = 13 - ((enh.drop (i * 13)).take 13).length then 0xff
                       else 0x00 } : Triplet))).flatMap
          (fun t => hammingEncode24 (packEnhancement t.mode t.address t.data))) ∧
    (((enh.drop (i * 13)).take 13) ++
      (List.range' 1 (13 - ((enh.drop (i * 13)).take 13).length)).map (fun k =>
        ({ mode := 0x1f, address := 0x3f,
           data := if k = 13 - ((enh.drop (i * 13)).take 13).length then 0xff
                   else 0x00 } : Triplet))).length = 13 ∧
    (((enh.drop (i * 13)).take 13).length = 13 →
      (List.range' 1 (13 - ((enh.drop (i * 13)).take 13).length)).map (fun k =>
        ({ mode := 0x1f, address := 0x3f,
           data := if k = 13 - ((enh.drop (i * 13)).take 13).length then 0xff
                   else 0x00 } : Triplet)) = []) := by
  refine ⟨?_, ?_, ?_⟩
  · unfold enhancementPackets
    rw [List.get?_map, List.get?_range h]
    simp only [Option.map_some']
    rw [encodeX26Packet_as_padded]
  · simp only [List.length_append, List.length_map, List.length_range', List.length_take]
    omega
  · intro h13
    simp [h13]

/-- Witness for C2: a single accumulated triplet gives one packet, padded with
12 fillers, last filler data 0xff. -/
theorem x26_enhancementPackets_thirteen_triplets_witness :
    0 < (([⟨0x04, 41, 0⟩] : List Triplet).length + 12) / 13 ∧
    (enhancementPackets [⟨0x04, 41, 0⟩]).get? 0 =
      some [21, 71, 18, 0, 255, 127, 128, 255, 127, 128, 255, 127, 128, 255, 127, 128,
            255, 127, 128, 255, 127, 128, 255, 127, 128, 255, 127, 128, 255, 127, 128,
            255, 127, 128, 255, 127, 128, 255, 255, 255] := by
  refine ⟨by decide, ?_⟩
  rw [(x26_enhancementPackets_thirteen_triplets [⟨0x04, 41, 0⟩] 0 (by decide)).1]
  decide

/-- wst-encoder.js spaces: Array(n).fill(' ').join('').  A negative count
makes the JS Array constructor throw (invalid array length), modelled as
none. -/
def spaces (n : Int) : Option (List Char) :=
  if n < 0 then none else some (List.replicate n.toNat ' ')

/-- wst-encoder.js CZECH_TO_BASE. -/
def CZECH_TO_BASE : List (Char × Char) :=
  [('á', 'a'), ('č', 'c'), ('ď', 'd'), ('é', 'e'), ('ě', 'e'), ('í', 'i'), ('ň', 'n'), ('ó', 'o'),
   ('ř', 'r'), ('š', 's'), ('ť', 't'), ('ú', 'u'), ('ů', 'u'), ('ý', 'y'), ('ž', 'z'),
   ('Á', 'A'), ('Č', 'C'), ('Ď', 'D'), ('É', 'E'), ('Ě', 'E'), ('Í', 'I'), ('Ň', 'N'), ('Ó', 'O'),
   ('Ř', 'R'), ('Š', 'S'), ('Ť', 'T'), ('Ú', 'U'), ('Ů', 'U'), ('Ý', 'Y'), ('Ž', 'Z')]

/-- wst-encoder.js toBaseLetters: Czech letter to base letter, other
characters kept when their codepoint is at most 0x7F, everything else
folded to a question mark. -/
def toBaseLetters (str : List Char) : List Char :=
  str.map (fun c =>
    match CZECH_TO_BASE.lookup c with
    | some b => b
    | none => if c.toNat ≤ 0x7F then c else '?')

/-- Diacritics mode of the WST encoder (wst-encoder.js opts.diacriticsEncoding). -/
inductive DiacriticsEncoding
  | latin2
  | x26
deriving Repr, DecidableEq

/-- Configuration of WSTEncoder.  The JS constructor also merges environment
variables into the X/26 options; the merged result is modelled directly as
the x26Opts field. -/
structure WSTConfig where
  magazine : Nat := 0
  page : Nat := 0x01
  startRow : Nat := 19
  doubleHeight : Bool := false
  diacriticsEncoding : DiacriticsEncoding := .x26
  x26Opts : X26Opts := {}
deriving Repr, DecidableEq

/-- wst-encoder.js WSTEncoder.#encodePrefix: clock run-in, framing code and
the two Hamming 8/4 packet-address bytes. -/
def encodePrefixBytes (magazine packet : Nat) : List Nat :=
  let x := magazine &&& 0x07
  let y := packet &&& 0x1F
  [0x55, 0x55, 0x27,
   hammingEncodeNybble (x + ((y &&& 1) <<< 3)),
   hammingEncodeNybble (y >>> 1)]

/-- wst-encoder.js WSTEncoder.#encodeHeaderPacket. -/
def encodeHeaderPacket (magazine page pageSubCode : Nat) (erase : Bool) : List Nat :=
  let header := encodePrefixBytes magazine 0
  let pageUnits := page &&& 0xF
  let pageTens := (page >>> 4) &&& 0xF
  let s1 := pageSubCode &&& 0xF
  let s2 := (pageSubCode >>> 4) &&& 0x7
  let s3 := (pageSubCode >>> 8) &&& 0xF
  let s4 := (pageSubCode >>> 12) &&& 0x3
  let s2 := if erase then s2 ||| (1 <<< 3) else s2
  let s4 := s4 ||| (1 <<< 3)
  let cb1 := (0 ||| 1) ||| (1 <<< 1)
  let cb2 := 0
  header
    ++ ([pageUnits, pageTens, s1, s2, s3, s4, cb1, cb2].map
          (fun n => hammingEncodeNybble (n &&& 0xF)))
    ++ List.replicate 32 0x20

/-- wst-encoder.js encodeDummy. -/
def encodeDummy (cfg : WSTConfig) : List (List Nat) :=
  [encodeHeaderPacket cfg.magazine 0xFF 0x3F7E false]

/-- The boxed 40-cell row text of #encodeDisplayRows: double-height and boxing
markers, the text, end markers, space padding, then substring (0, 40). -/
def boxedText (text : List Char) : Option (List Char) :=
  (spaces (40 - (text.length : Int))).map (fun pad =>
    (('\x0b' :: '\x0b' :: text) ++ '\x0a' :: '\x0a' :: pad).take 40)

/-- Modelled from the spec: parity.js is missing from the sources; number of
set bits among the low eight bits of a byte. -/
def popcount8 (b : Nat) : Nat :=
  ((List.range 8).map (fun i => (b >>> i) &&& 1)).sum

/-- Modelled from the spec: parity.js is missing from the sources.  Spec 4.1:
bytes with an odd number of set bits are left alone, others get bit 7 set. -/
def applyParity (bytes : List Nat) : List Nat :=
  bytes.map (fun b => if popcount8 b % 2 = 1 then b else b ||| 0x80)

/-- UTF-8 encoding of one character (TextEncoder.encode). -/
def utf8EncodeChar (c : Char) : List Nat :=
  let n := c.toNat
  if n < 0x80 then [n]
  else if n < 0x800 then
    [0xC0 ||| (n >>> 6), 0x80 ||| (n &&& 0x3F)]
  else if n < 0x10000 then
    [0xE0 ||| (n >>> 12), 0x80 ||| ((n >>> 6) &&& 0x3F), 0x80 ||| (n &&& 0x3F)]
  else
    [0xF0 ||| (n >>> 18), 0x80 ||| ((n >>> 12) &&& 0x3F),
     0x80 ||| ((n >>> 6) &&& 0x3F), 0x80 ||| (n &&& 0x3F)]

/-- TextEncoder.encode on a whole string. -/
def utf8Encode (s : List Char) : List Nat := s.flatMap utf8EncodeChar

/-- The latin2 branch of #encodeDisplayRows: one packet per row, walking the
rows with their index; a row whose boxed text throws aborts the whole map. -/
def encodeRowsLatin2 (magazine startRow : Nat) :
    List (List Char) → Nat → Option (List (List Nat))
  | [], _ => some []
  | text :: rest, i =>
    match boxedText text with
    | none => none
    | some boxed =>
      let baseStr := toBaseLetters boxed
      let payload := applyParity (utf8Encode baseStr)
      match encodeRowsLatin2 magazine startRow rest (i + 1) with
      | none => none
      | some ps => some ((encodePrefixBytes magazine (startRow + i) ++ payload) :: ps)

/-- The x26 branch of #encodeDisplayRows: like latin2 but each boxed row goes
through the X/26 encoder, whose triplets accumulate across the rows. -/
def encodeRowsX26 (magazine : Nat) (opts : X26Opts) (startRow : Nat) :
    List (List Char) → Nat → List Triplet → Option (List (List Nat) × List Triplet)
  | [], _, acc => some ([], acc)
  | text :: rest, i, acc =>
    match boxedText text with
    | none => none
    | some boxed =>
      let r := encodeRow opts boxed (startRow + i)
      let payload := applyParity (utf8Encode r.1)
      match encodeRowsX26 magazine opts startRow rest (i + 1) (acc ++ r.2) with
      | none => none
      | some (ps, accF) =>
        some ((encodePrefixBytes magazine (startRow + i) ++ payload) :: ps, accF)

/-- wst-encoder.js WSTEncoder.#encodeDisplayRows.  In x26 mode the
enhancement packets are emitted before the display-row packets. -/
def encodeDisplayRows (cfg : WSTConfig) (startRow : Nat) (rows : List (List Char)) :
    Option (List (List Nat)) :=
  match cfg.diacriticsEncoding with
  | .latin2 => encodeRowsLatin2 cfg.magazine startRow rows 0
  | .x26 =>
    match encodeRowsX26 cfg.magazine cfg.x26Opts startRow rows 0 [] with
    | none => none
    | some (rowPackets, enh) =>
      some ((enhancementPackets enh).map
              (fun e => encodePrefixBytes cfg.magazine 26 ++ e) ++ rowPackets)

/-- wst-encoder.js WSTEncoder.encodeSubtitle. -/
def encodeSubtitle (cfg : WSTConfig) (rows : List (List Char)) :
    Option (List (List Nat)) :=
  let headerPacket := encodeHeaderPacket cfg.magazine cfg.page 0 true
  if rows.isEmpty then some [headerPacket]
  else (encodeDisplayRows cfg cfg.startRow rows).map (fun ps => headerPacket :: ps)

/-- C3 counterexample: for a 40-character row text the boxed payload is the
two 0x0B markers followed by only the first 38 text characters; the 0x0A end
markers claimed to be always present are truncated away (and 2 text
characters are dropped), although the payload is still 40 bytes. -/
theorem wst_boxedText_end_markers_truncated :
    boxedText (List.replicate 40 'a') =
      some ('\x0b' :: '\x0b' :: List.replicate 38 'a') ∧
    (((boxedText (List.replicate 40 'a')).getD []).contains '\x0a') = false ∧
    ((boxedText (List.replicate 40 'a')).getD []).length = 40 := by
  refine ⟨by decide, by decide, by decide⟩

/-- C3 amended: every row text of at most 40 characters yields a payload of
exactly 40 cells, and both framing markers, the full text and the space
padding are all present exactly when the text is at most 36 characters (the
0x0B 0x0B and 0x0A 0x0A markers take the other 4 cells). -/
theorem wst_boxedText_framing (text : List Char) (h40 : text.length ≤ 40) :
    (∃ l, boxedText text = some l ∧ l.length = 40) ∧
    (text.length ≤ 36 →
      boxedText text =
        some (('\x0b' :: '\x0b' :: text) ++
          '\x0a' :: '\x0a' :: List.replicate (36 - text.length) ' ')) := by
  have hnn : ¬ ((40 : Int) - (text.length : Int) < 0) := by omega
  have htn : ((40 : Int) - (text.length : Int)).toNat = 40 - text.length := by omega
  have hbt : boxedText text =
      some ((('\x0b' :: '\x0b' :: text) ++
        '\x0a' :: '\x0a' :: List.replicate (40 - text.length) ' ').take 40) := by
    simp only [boxedText, spaces, if_neg hnn, Option.map_some', htn]
  constructor
  · refine ⟨_, hbt, ?_⟩
    simp only [List.length_take, List.length_append, List.length_cons,
      List.length_replicate]
    omega
  · intro h36
    have hsplit : 40 - text.length = (36 - text.length) + 4 := by omega
    simp only [boxedText, spaces, if_neg hnn, Option.map_some', htn, hsplit,
      List.replicate_add]
    congr 1
    have hlen : (('\x0b' :: '\x0b' :: text) ++
        '\x0a' :: '\x0a' :: List.replicate (36 - text.length) ' ').length = 40 := by
      simp only [List.length_append, List.length_cons, List.length_replicate]
      omega
    calc (('\x0b' :: '\x0b' :: text) ++
            '\x0a' :: '\x0a' :: (List.replicate (36 - text.length) ' ' ++
              List.replicate 4 ' ')).take 40
        = ((('\x0b' :: '\x0b' :: text) ++
            '\x0a' :: '\x0a' :: List.replicate (36 - text.length) ' ') ++
              List.replicate 4 ' ').take 40 := by simp
      _ = ('\x0b' :: '\x0b' :: text) ++
            '\x0a' :: '\x0a' :: List.replicate (36 - text.length) ' ' := by
          rw [← hlen, List.take_left]

/-- Witness for the amended C3 at a short concrete row. -/
theorem wst_boxedText_framing_witness :
    (['H', 'i'] : List Char).length ≤ 40 ∧
    boxedText ['H', 'i'] =
      some (('\x0b' :: '\x0b' :: ['H', 'i']) ++
        '\x0a' :: '\x0a' :: List.replicate 34 ' ') := by
  refine ⟨by decide, ?_⟩
  exact (wst_boxedText_framing ['H', 'i'] (by decide)).2 (by decide)

lemma lookup_eq_some_mem_snd {l : List (Char × Char)} {a b : Char}
    (h : l.lookup a = some b) : b ∈ l.map Prod.snd := by
  induction l with
  | nil => simp [List.lookup] at h
  | cons p t ih =>
    obtain ⟨k, v⟩ := p
    simp only [List.lookup] at h
    cases hk : (a == k) with
    | true =>
      rw [hk] at h
      simp only [Option.some.injEq] at h
      subst h
      simp
    | false =>
      rw [hk] at h
      simpa using Or.inr (ih h)

/-- C7 counterexample: the umlaut letter is a non-ASCII source letter whose
base letter is a, yet latin2 folding maps it to a question mark — the claimed
base-letter folding holds only for the Czech composition-table letters. -/
theorem wst_toBaseLetters_counterexample :
    toBaseLetters ['ä'] = ['?'] ∧ ('?' : Char) ≠ 'a' := by
  refine ⟨by decide, by decide⟩

/-- C7 amended: in latin2 mode each character folds elementwise as follows:
Czech composition-table letters fold to their base ASCII letter, other
characters with codepoint at most 0x7F are kept, and every other codepoint
(including non-Czech accented letters) folds to a question mark; the output
always stays 7-bit. -/
theorem wst_toBaseLetters_folding (str : List Char) :
    (toBaseLetters str).length = str.length ∧
    (∀ i ch, str.get? i = some ch →
      (toBaseLetters str).get? i =
        some (match CZECH_TO_BASE.lookup ch with
              | some b => b
              | none => if ch.toNat ≤ 0x7F then ch else '?')) ∧
    (∀ c ∈ toBaseLetters str, c.toNat ≤ 0x7F) := by
  refine ⟨by simp [toBaseLetters], ?_, ?_⟩
  · intro i ch hch
    simp only [toBaseLetters, List.get?_map, hch, Option.map_some']
  · intro c hc
    simp only [toBaseLetters, List.mem_map] at hc
    obtain ⟨a, _, rfl⟩ := hc
    cases hl : CZECH_TO_BASE.lookup a with
    | some b =>
      simp only [hl]
      have hall : (CZECH_TO_BASE.map Prod.snd).all
          (fun b => decide (b.toNat ≤ 0x7F)) = true := by decide
      have hmem := lookup_eq_some_mem_snd hl
      simpa using List.all_eq_true.mp hall _ hmem
    | none =>
      simp only [hl]
      by_cases ha : a.toNat ≤ 0x7F
      · simp [ha]
      · simp [ha]

/-- Witness for the amended C7 at a concrete row mixing a Czech letter, an
ASCII letter and a non-Czech accented letter. -/
theorem wst_toBaseLetters_folding_witness :
    (toBaseLetters ['č', 'x', 'ä']).length = 3 ∧
    (toBaseLetters ['č', 'x', 'ä']).get? 0 = some 'c' ∧
    (toBaseLetters ['č', 'x', 'ä']).get? 2 = some '?' := by
  have h := wst_toBaseLetters_folding ['č', 'x', 'ä']
  refine ⟨h.1, ?_, ?_⟩
  · rw [h.2.1 0 'č' (by decide)]
    decide
  · rw [h.2.1 2 'ä' (by decide)]
    decide

/-- C4: encodeSubtitle on an empty rows list returns exactly one packet: the
header packet with the erase control bit set (sub-code nibble s2 = 8, since
pageSubCode is 0 and erase forces bit 3), 45 bytes long: 5-byte packet
address, 8 Hamming-encoded nibbles, 32 bytes of 0x20. -/
theorem wst_encodeSubtitle_empty (cfg : WSTConfig) :
    encodeSubtitle cfg [] =
      some [encodePrefixBytes cfg.magazine 0
        ++ ([cfg.page &&& 0xF, (cfg.page >>> 4) &&& 0xF, 0, 8, 0, 8, 3, 0].map
              (fun n => hammingEncodeNybble (n &&& 0xF)))
        ++ List.replicate 32 0x20] ∧
    ∀ p ∈ (encodeSubtitle cfg []).getD [], p.length = 45 := by
  have hmain : encodeSubtitle cfg [] =
      some [encodePrefixBytes cfg.magazine 0
        ++ ([cfg.page &&& 0xF, (cfg.page >>> 4) &&& 0xF, 0, 8, 0, 8, 3, 0].map
              (fun n => hammingEncodeNybble (n &&& 0xF)))
        ++ List.replicate 32 0x20] := by
    simp only [encodeSubtitle, List.isEmpty_nil, if_pos]
    rfl
  refine ⟨hmain, ?_⟩
  intro p hp
  rw [hmain] at hp
  simp only [Option.getD_some, List.mem_singleton] at hp
  subst hp
  simp [encodePrefixBytes, List.length_append]

lemma boxedText_eq_none_iff (text : List Char) :
    boxedText text = none ↔ 40 < text.length := by
  simp only [boxedText, spaces]
  by_cases h : (40 : Int) - (text.length : Int) < 0
  · simp only [if_pos h, Option.map_none']
    constructor
    · intro _; omega
    · intro _; trivial
  · simp only [if_neg h, Option.map_some']
    constructor
    · intro hc; cases hc
    · intro hl; exact absurd hl (by omega)

lemma encodeRowsLatin2_isSome_iff (magazine startRow : Nat) :
    ∀ (rows : List (List Char)) (i : Nat),
      (encodeRowsLatin2 magazine startRow rows i).isSome = true ↔
        ∀ r ∈ rows, r.length ≤ 40 := by
  intro rows
  induction rows with
  | nil => intro i; simp [encodeRowsLatin2]
  | cons text rest ih =>
    intro i
    cases hb : boxedText text with
    | none =>
      have h40 := (boxedText_eq_none_iff text).mp hb
      simp only [encodeRowsLatin2, hb]
      constructor
      · intro h; simp at h
      · intro hall
        exact absurd (hall text (by simp)) (by omega)
    | some boxed =>
      have h40 : ¬ 40 < text.length := by
        intro hc
        rw [(boxedText_eq_none_iff text).mpr hc] at hb
        cases hb
      simp only [encodeRowsLatin2, hb]
      cases hr : encodeRowsLatin2 magazine startRow rest (i + 1) with
      | none =>
        have := (ih (i + 1)).symm
        rw [hr] at this
        simp only [Option.isSome_none] at this
        constructor
        · intro h; simp at h
        · intro hall
          exact absurd (this.mp (fun r hrr => hall r (by simp [hrr]))) (by simp)
      | some ps =>
        have hrest : ∀ r ∈ rest, r.length ≤ 40 := by
          have := ih (i + 1)
          rw [hr] at this
          exact this.mp (by simp)
        simp only [Option.isSome_some, true_iff]
        intro r hrr
        rcases List.mem_cons.mp hrr with h | h
        · subst h; omega
        · exact hrest r h

lemma encodeRowsX26_isSome_iff (magazine : Nat) (opts : X26Opts) (startRow : Nat) :
    ∀ (rows : List (List Char)) (i : Nat) (acc : List Triplet),
      (encodeRowsX26 magazine opts startRow rows i acc).isSome = true ↔
        ∀ r ∈ rows, r.length ≤ 40 := by
  intro rows
  induction rows with
  | nil => intro i acc; simp [encodeRowsX26]
  | cons text rest ih =>
    intro i acc
    cases hb : boxedText text with
    | none =>
      have h40 := (boxedText_eq_none_iff text).mp hb
      simp only [encodeRowsX26, hb]
      constructor
      · intro h; simp at h
      · intro hall
        exact absurd (hall text (by simp)) (by omega)
    | some boxed =>
      have h40 : ¬ 40 < text.length := by
        intro hc
        rw [(boxedText_eq_none_iff text).mpr hc] at hb
        cases hb
      simp only [encodeRowsX26, hb]
      cases hr : encodeRowsX26 magazine opts startRow rest (i + 1)
          (acc ++ (encodeRow opts boxed (startRow + i)).2) with
      | none =>
        have hiff := ih (i + 1) (acc ++ (encodeRow opts boxed (startRow + i)).2)
        rw [hr] at hiff
        simp only [Option.isSome_none] at hiff
        constructor
        · intro h; simp at h
        · intro hall
          exact absurd (hiff.mpr (fun r hrr => hall r (List.mem_cons_of_mem _ hrr)))
            (by simp)
      | some p =>
        obtain ⟨ps, accF⟩ := p
        have hrest : ∀ r ∈ rest, r.length ≤ 40 := by
          have hiff := ih (i + 1) (acc ++ (encodeRow opts boxed (startRow + i)).2)
          rw [hr] at hiff
          exact hiff.mp (by simp)
        simp only [Option.isSome_some, true_iff]
        intro r hrr
        rcases List.mem_cons.mp hrr with h | h
        · subst h; omega
        · exact hrest r h

lemma encodeDisplayRows_isSome_iff (cfg : WSTConfig) (startRow : Nat)
    (rows : List (List Char)) :
    (encodeDisplayRows cfg startRow rows).isSome = true ↔
      ∀ r ∈ rows, r.length ≤ 40 := by
  cases hde : cfg.diacriticsEncoding with
  | latin2 =>
    simp only [encodeDisplayRows, hde]
    exact encodeRowsLatin2_isSome_iff cfg.magazine startRow rows 0
  | x26 =>
    simp only [encodeDisplayRows, hde]
    cases hx : encodeRowsX26 cfg.magazine cfg.x26Opts startRow rows 0 [] with
    | none =>
      have hiff := encodeRowsX26_isSome_iff cfg.magazine cfg.x26Opts startRow rows 0 []
      rw [hx] at hiff
      simp only [Option.isSome_none] at hiff
      constructor
      · intro h; simp at h
      · intro hall; exact absurd (hiff.mpr hall) (by simp)
    | some p =>
      obtain ⟨ps, accF⟩ := p
      have hiff := encodeRowsX26_isSome_iff cfg.magazine cfg.x26Opts startRow rows 0 []
      rw [hx] at hiff
      simp only [Option.isSome_some, true_iff] at hiff
      simpa using hiff

/-- C10: encodeSubtitle is not total over row strings: a row longer than 40
characters makes the space-padding helper receive a negative count, which
throws (modelled as none) so no packets are returned, while rows of length at
most 40 always encode successfully. -/
theorem wst_encodeSubtitle_row_length_totality (cfg : WSTConfig)
    (rows : List (List Char)) :
    ((∀ r ∈ rows, r.length ≤ 40) → (encodeSubtitle cfg rows).isSome = true) ∧
    ((∃ r ∈ rows, 40 < r.length) → encodeSubtitle cfg rows = none) := by
  by_cases he : rows.isEmpty
  · rw [List.isEmpty_iff] at he
    subst he
    refine ⟨fun _ => by simp [encodeSubtitle], fun hex => ?_⟩
    obtain ⟨r, hr, _⟩ := hex
    cases hr
  · have hne : ¬ rows.isEmpty = true := he
    constructor
    · intro hall
      simp only [encodeSubtitle, if_neg hne]
      have := (encodeDisplayRows_isSome_iff cfg cfg.startRow rows).mpr hall
      cases hd : encodeDisplayRows cfg cfg.startRow rows with
      | none => rw [hd] at this; cases this
      | some ps => simp
    · intro hex
      obtain ⟨r, hr, hlen⟩ := hex
      simp only [encodeSubtitle, if_neg hne]
      cases hd : encodeDisplayRows cfg cfg.startRow rows with
      | none => simp
      | some ps =>
        have := (encodeDisplayRows_isSome_iff cfg cfg.startRow rows).mp
          (by rw [hd]; simp)
        exact absurd (this r hr) (by omega)

/-- Witness for C10: a 41-character row yields none, a 40-character row list
encodes successfully. -/
theorem wst_encodeSubtitle_row_length_totality_witness :
    encodeSubtitle {} [List.replicate 41 'a'] = none ∧
    (encodeSubtitle {} [List.replicate 40 'a']).isSome = true := by
  constructor
  · exact (wst_encodeSubtitle_row_length_totality {} [List.replicate 41 'a']).2
      ⟨List.replicate 41 'a', by simp, by simp⟩
  · exact (wst_encodeSubtitle_row_length_totality {} [List.replicate 40 'a']).1
      (by intro r hr; simp at hr; simp [hr])

/-- One WebVTT cue (vtt-parser.js output): start and end in seconds.  The
field stop models the JS field end (a reserved word here). -/
structure Cue where
  start : ℚ
  stop : ℚ
  text : List Char
deriving Repr, DecidableEq

/-- One display segment (titling-engine.js): start and end in seconds plus at
most two display lines.  The field stop models the JS field end. -/
structure Segment where
  start : ℚ
  stop : ℚ
  lines : List (List Char)
deriving Repr, DecidableEq

/-- titling-engine.js MAX_LINES. -/
def MAX_LINES : Nat := 2

/-- titling-engine.js CHARS_PER_LINE. -/
def CHARS_PER_LINE : Nat := 38

/-- The JS regexp character class of whitespace characters, restricted to the
code points that occur in subtitle text. -/
def isJsSpace (c : Char) : Bool :=
  c == ' ' || c == '\t' || c == '\n' || c == '\r' || c == '\x0b' || c == '\x0c' ||
    c == ' '

/-- titling-engine.js words: split on whitespace runs and drop empties. -/
def words (text : List Char) : List (List Char) :=
  (List.splitOnP isJsSpace text).filter (fun w => w ≠ [])

/-- One step of the wrapLines loop over the words: state is (result, line). -/
def wrapStep (maxChars : Nat) (st : List (List Char) × List Char)
    (word : List Char) : List (List Char) × List Char :=
  let line := st.2
  let next := if line = [] then word else line ++ ' ' :: word
  if next.length ≤ maxChars then (st.1, next)
  else ((if line = [] then st.1 else st.1 ++ [line]),
        if word.length ≤ maxChars then word else word.take maxChars)

/-- titling-engine.js wrapLines. -/
def wrapLines (text : List Char) (maxChars : Nat) : List (List Char) :=
  let r := (words text).foldl (wrapStep maxChars) ([], [])
  if r.2 = [] then r.1 else r.1 ++ [r.2]

/-- The chunking into groups of MAX_LINES = 2 performed by the
cueToSegments for-loop (slice (i, i + 2) stepping by 2). -/
def chunksOf2 {α : Type} : List α → List (List α)
  | [] => []
  | [a] => [[a]]
  | a :: b :: rest => [a, b] :: chunksOf2 rest

/-- The timing loop of cueToSegments: positions each chunk at the running
elapsed time with duration proportional to its character count. -/
def layoutSegments (duration totalChars : ℚ) :
    List (List (List Char)) → ℚ → List Segment
  | [], _ => []
  | c :: rest, elapsed =>
    let segDuration := duration * ((c.join.length : ℚ) / totalChars)
    { start := elapsed, stop := elapsed + segDuration, lines := c } ::
      layoutSegments duration totalChars rest (elapsed + segDuration)

/-- The final fix-up of cueToSegments: the last segment's end is set to the
cue end. -/
def setLastStop (e : ℚ) : List Segment → List Segment
  | [] => []
  | [s] => [{ s with stop := e }]
  | s :: s2 :: rest => s :: setLastStop e (s2 :: rest)

/-- titling-engine.js cueToSegments. -/
def cueToSegments (cue : Cue) : List Segment :=
  let duration := cue.stop - cue.start
  let allLines := wrapLines cue.text CHARS_PER_LINE
  let chunks := (chunksOf2 allLines).map (fun c => c.map (fun l => l.take CHARS_PER_LINE))
  match chunks with
  | [] => []
  | [c] => [{ start := cue.start, stop := cue.stop, lines := c }]
  | cs =>
    let totalChars := allLines.join.length
    setLastStop cue.stop (layoutSegments duration (totalChars : ℚ) cs cue.start)

/-- titling-engine.js cuesToSegments. -/
def cuesToSegments (cues : List Cue) : List Segment :=
  cues.flatMap cueToSegments

/-- The segments are laid end-to-end from a given time: a formalization of
the claimed segment-chaining property. -/
def chainedFrom : ℚ → List Segment → Prop
  | _, [] => True
  | t, s :: rest => s.start = t ∧ chainedFrom s.stop rest

lemma map_id_of_mem {α : Type} : ∀ (l : List α) (f : α → α),
    (∀ a ∈ l, f a = a) → l.map f = l := by
  intro l f
  induction l with
  | nil => intro _; rfl
  | cons a t ih =>
    intro h
    simp only [List.map_cons, h a (by simp)]
    rw [ih (fun x hx => h x (by simp [hx]))]

lemma wrapFold_inv (maxChars : Nat) :
    ∀ (ws : List (List Char)) (res : List (List Char)) (line : List Char),
      (∀ r ∈ res, r ≠ [] ∧ r.length ≤ maxChars) → line.length ≤ maxChars →
      (∀ r ∈ (ws.foldl (wrapStep maxChars) (res, line)).1,
        r ≠ [] ∧ r.length ≤ maxChars) ∧
      (ws.foldl (wrapStep maxChars) (res, line)).2.length ≤ maxChars := by
  intro ws
  induction ws with
  | nil => intro res line hres hline; exact ⟨hres, hline⟩
  | cons w rest ih =>
    intro res line hres hline
    rw [List.foldl_cons]
    by_cases hnext : (if line = [] then w else line ++ ' ' :: w).length ≤ maxChars
    · have hstep : wrapStep maxChars (res, line) w =
          (res, if line = [] then w else line ++ ' ' :: w) := by
        simp only [wrapStep, if_pos hnext]
      rw [hstep]
      exact ih res _ hres hnext
    · have hstep : wrapStep maxChars (res, line) w =
          ((if line = [] then res else res ++ [line]),
           if w.length ≤ maxChars then w else w.take maxChars) := by
        simp only [wrapStep, if_neg hnext]
      rw [hstep]
      apply ih
      · intro r hr
        by_cases hl : line = []
        · rw [if_pos hl] at hr; exact hres r hr
        · rw [if_neg hl] at hr
          rcases List.mem_append.mp hr with h | h
          · exact hres r h
          · simp only [List.mem_singleton] at h
            subst h
            exact ⟨hl, hline⟩
      · by_cases hw : w.length ≤ maxChars
        · rw [if_pos hw]; exact hw
        · rw [if_neg hw]
          simp only [List.length_take]
          exact Nat.min_le_left _ _

lemma wrapLines_mem (text : List Char) (maxChars : Nat) :
    ∀ l ∈ wrapLines text maxChars, l ≠ [] ∧ l.length ≤ maxChars := by
  intro l hl
  have hinv := wrapFold_inv maxChars (words text) [] [] (by simp) (by simp)
  simp only [wrapLines] at hl
  by_cases h2 : ((words text).foldl (wrapStep maxChars) ([], [])).2 = []
  · rw [if_pos h2] at hl
    exact hinv.1 l hl
  · rw [if_neg h2] at hl
    rcases List.mem_append.mp hl with h | h
    · exact hinv.1 l h
    · simp only [List.mem_singleton] at h
      subst h
      exact ⟨h2, hinv.2⟩

lemma chunksOf2_join {α : Type} : ∀ l : List α, (chunksOf2 l).join = l := by
  intro l
  induction l using chunksOf2.induct with
  | case1 => rfl
  | case2 a => rfl
  | case3 a b rest ih => simp [chunksOf2, ih]

lemma chunksOf2_mem {α : Type} : ∀ (l : List α) (c : List α), c ∈ chunksOf2 l →
    c ≠ [] ∧ ∀ x ∈ c, x ∈ l := by
  intro l
  induction l using chunksOf2.induct with
  | case1 => intro c hc; cases hc
  | case2 a =>
    intro c hc
    simp only [chunksOf2, List.mem_singleton] at hc
    subst hc
    exact ⟨by simp, by simp⟩
  | case3 a b rest ih =>
    intro c hc
    simp only [chunksOf2, List.mem_cons] at hc
    rcases hc with h | h
    · subst h
      refine ⟨by simp, ?_⟩
      intro x hx
      simp only [List.mem_cons] at hx
      rcases hx with h | h | h
      · simp [h]
      · simp [h]
      · cases h
    · have := ih c h
      refine ⟨this.1, fun x hx => ?_⟩
      have := this.2 x hx
      simp [this]

lemma sum_join_join_length {α : Type} : ∀ cs : List (List (List α)),
    (cs.map (fun c => c.join.length)).sum = (cs.join.join).length := by
  intro cs
  induction cs with
  | nil => rfl
  | cons c rest ih =>
    simp only [List.map_cons, List.sum_cons, List.join_cons, List.join_append,
      List.length_append, ih]

lemma join_length_ne_zero (ls : List (List Char)) (hne : ls ≠ [])
    (hmem : ∀ l ∈ ls, l ≠ []) : ls.join.length ≠ 0 := by
  cases ls with
  | nil => exact absurd rfl hne
  | cons l rest =>
    have hl := hmem l (by simp)
    simp only [List.join_cons, List.length_append]
    intro hc
    apply hl
    have : l.length = 0 := by omega
    exact List.length_eq_zero.mp this

lemma layoutSegments_chain (d T : ℚ) :
    ∀ (cs : List (List (List Char))) (e : ℚ),
      chainedFrom e (layoutSegments d T cs e) := by
  intro cs
  induction cs with
  | nil => intro e; trivial
  | cons c rest ih =>
    intro e
    exact ⟨rfl, ih _⟩

lemma layoutSegments_mem_duration (d T : ℚ) :
    ∀ (cs : List (List (List Char))) (e : ℚ) (s : Segment),
      s ∈ layoutSegments d T cs e →
      s.stop - s.start = d * ((s.lines.join.length : ℚ) / T) := by
  intro cs
  induction cs with
  | nil => intro e s h; cases h
  | cons c rest ih =>
    intro e s h
    rcases List.mem_cons.mp h with h | h
    · subst h
      simp only
      ring
    · exact ih _ s h

lemma layoutSegments_length (d T : ℚ) :
    ∀ (cs : List (List (List Char))) (e : ℚ),
      (layoutSegments d T cs e).length = cs.length := by
  intro cs
  induction cs with
  | nil => intro e; rfl
  | cons c rest ih => intro e; simp [layoutSegments, ih]

lemma layoutSegments_getLast_stop (d T : ℚ) :
    ∀ (cs : List (List (List Char))) (e : ℚ), cs ≠ [] →
      ((layoutSegments d T cs e).getLast?).map Segment.stop =
        some (e + d * (((cs.map (fun c => c.join.length)).sum : ℚ) / T)) := by
  intro cs
  induction cs with
  | nil => intro e h; exact absurd rfl h
  | cons c rest ih =>
    intro e _
    cases rest with
    | nil =>
      simp only [layoutSegments, List.getLast?_singleton, Option.map_some',
        List.map_cons, List.map_nil, List.sum_cons, List.sum_nil]
      norm_num
    | cons c2 rest2 =>
      have hstep : layoutSegments d T (c :: c2 :: rest2) e =
          { start := e, stop := e + d * ((c.join.length : ℚ) / T), lines := c } ::
            layoutSegments d T (c2 :: rest2)
              (e + d * ((c.join.length : ℚ) / T)) := rfl
      rw [hstep]
      have htail : layoutSegments d T (c2 :: rest2)
          (e + d * ((c.join.length : ℚ) / T)) =
          { start := e + d * ((c.join.length : ℚ) / T),
            stop := e + d * ((c.join.length : ℚ) / T) +
              d * ((c2.join.length : ℚ) / T), lines := c2 } ::
            layoutSegments d T rest2
              (e + d * ((c.join.length : ℚ) / T) + d * ((c2.join.length : ℚ) / T)) := rfl
      rw [htail, List.getLast?_cons_cons, ← htail,
        ih (e + d * ((c.join.length : ℚ) / T)) (by simp)]
      congr 1
      simp only [List.map_cons, List.sum_cons]
      ring

lemma setLastStop_eq_self : ∀ (l : List Segment) (e : ℚ),
    (l.getLast?).map Segment.stop = some e → setLastStop e l = l := by
  intro l
  induction l with
  | nil => intro e h; simp at h
  | cons s rest ih =>
    intro e h
    cases rest with
    | nil =>
      simp only [List.getLast?_singleton, Option.map_some', Option.some.injEq] at h
      subst h
      rfl
    | cons s2 rest2 =>
      rw [List.getLast?_cons_cons] at h
      simp only [setLastStop]
      rw [ih e h]

/-- C5: cueToSegments lays the segments end-to-end starting at the cue start,
the last segment ends exactly at the cue end, with two or more segments each
segment's duration is the cue duration multiplied by its concatenated
character count over the total, and a single-segment cue inherits the cue
start and end unchanged.  (Times are modelled as rationals.) -/
theorem segmenter_cueToSegments_timing (cue : Cue) :
    chainedFrom cue.start (cueToSegments cue) ∧
    (cueToSegments cue ≠ [] →
      ((cueToSegments cue).getLast?).map Segment.stop = some cue.stop) ∧
    (1 < (cueToSegments cue).length → ∀ s ∈ cueToSegments cue,
      s.stop - s.start = (cue.stop - cue.start) *
        ((s.lines.join.length : ℚ) /
          ((wrapLines cue.text CHARS_PER_LINE).join.length : ℚ))) ∧
    ((cueToSegments cue).length = 1 →
      ∃ ls, cueToSegments cue =
        [{ start := cue.start, stop := cue.stop, lines := ls }]) := by
  have hid : (chunksOf2 (wrapLines cue.text CHARS_PER_LINE)).map
      (fun c => c.map (fun l => l.take CHARS_PER_LINE)) =
      chunksOf2 (wrapLines cue.text CHARS_PER_LINE) := by
    apply map_id_of_mem
    intro c hc
    apply map_id_of_mem
    intro l hl
    have hmem := (chunksOf2_mem _ c hc).2 l hl
    exact List.take_of_length_le (wrapLines_mem cue.text CHARS_PER_LINE l hmem).2
  have hcts0 : cueToSegments cue =
      match chunksOf2 (wrapLines cue.text CHARS_PER_LINE) with
      | [] => []
      | [c] => [{ start := cue.start, stop := cue.stop, lines := c }]
      | cs => setLastStop cue.stop
          (layoutSegments (cue.stop - cue.start)
            (((wrapLines cue.text CHARS_PER_LINE).join.length : ℚ)) cs cue.start) := by
    conv_lhs => rw [cueToSegments]
    rw [hid]
  cases hsh : chunksOf2 (wrapLines cue.text CHARS_PER_LINE) with
  | nil =>
    rw [hsh] at hcts0
    refine ⟨?_, ?_, ?_, ?_⟩
    · rw [hcts0]; trivial
    · intro h; exact absurd hcts0 h
    · intro h; rw [hcts0] at h; simp at h
    · intro h; rw [hcts0] at h; simp at h
  | cons c rest =>
    cases rest with
    | nil =>
      rw [hsh] at hcts0
      refine ⟨?_, ?_, ?_, ?_⟩
      · rw [hcts0]; exact ⟨rfl, trivial⟩
      · intro _; rw [hcts0]; simp
      · intro h; rw [hcts0] at h; simp at h
      · intro _; exact ⟨c, hcts0⟩
    | cons c2 rest2 =>
      rw [hsh] at hcts0
      have hALne : wrapLines cue.text CHARS_PER_LINE ≠ [] := by
        intro h
        rw [h] at hsh
        cases hsh
      have hT0 : (wrapLines cue.text CHARS_PER_LINE).join.length ≠ 0 :=
        join_length_ne_zero _ hALne
          (fun l hl => (wrapLines_mem cue.text CHARS_PER_LINE l hl).1)
      have hTQ : (((wrapLines cue.text CHARS_PER_LINE).join.length : ℚ)) ≠ 0 :=
        Nat.cast_ne_zero.mpr hT0
      have hsum : ((c :: c2 :: rest2).map (fun c => c.join.length)).sum =
          (wrapLines cue.text CHARS_PER_LINE).join.length := by
        rw [← hsh, sum_join_join_length, chunksOf2_join]
      have hsumQ : ((c :: c2 :: rest2).map (fun c => ((c.join.length : ℚ)))).sum =
          (((wrapLines cue.text CHARS_PER_LINE).join.length : ℚ)) := by
        rw [← hsum, Nat.cast_list_sum, List.map_map]
        rfl
      have hlast := layoutSegments_getLast_stop (cue.stop - cue.start)
        (((wrapLines cue.text CHARS_PER_LINE).join.length : ℚ))
        (c :: c2 :: rest2) cue.start (by simp)
      have hlast2 : ((layoutSegments (cue.stop - cue.start)
          (((wrapLines cue.text CHARS_PER_LINE).join.length : ℚ))
          (c :: c2 :: rest2) cue.start).getLast?).map Segment.stop =
          some cue.stop := by
        rw [hlast]
        congr 1
        rw [hsumQ, div_self hTQ]
        ring
      have hset := setLastStop_eq_self _ cue.stop hlast2
      have hcts1 : cueToSegments cue =
          setLastStop cue.stop
            (layoutSegments (cue.stop - cue.start)
              (((wrapLines cue.text CHARS_PER_LINE).join.length : ℚ))
              (c :: c2 :: rest2) cue.start) := hcts0
      clear hcts0
      have hcts0 := hcts1
      rw [hset] at hcts0
      refine ⟨?_, ?_, ?_, ?_⟩
      · rw [hcts0]; exact layoutSegments_chain _ _ _ cue.start
      · intro _; rw [hcts0]; exact hlast2
      · intro _ s hs
        rw [hcts0] at hs
        exact layoutSegments_mem_duration _ _ _ cue.start s hs
      · intro h1
        rw [hcts0, layoutSegments_length] at h1
        simp at h1

/-- Witness for C5 at a concrete two-segment cue: the text wraps into three
lines, hence two chunks, and the conjuncts are discharged on them. -/
theorem segmenter_cueToSegments_timing_witness :
    chainedFrom 0 (cueToSegments { start := 0, stop := 2, text :=
      (String.toList "aaaaaaaaaaaaaaaaaaaa bbbbbbbbbbbbbbbbbbbb cccccccccccccccccccc") }) ∧
    ((cueToSegments { start := 0, stop := 2, text :=
      (String.toList "aaaaaaaaaaaaaaaaaaaa bbbbbbbbbbbbbbbbbbbb cccccccccccccccccccc") }).getLast?).map
        Segment.stop = some 2 := by
  have h := segmenter_cueToSegments_timing { start := 0, stop := 2, text :=
    (String.toList "aaaaaaaaaaaaaaaaaaaa bbbbbbbbbbbbbbbbbbbb cccccccccccccccccccc") }
  exact ⟨h.1, h.2.1 (by decide)⟩

/-- The scheduler state touched by one tick (server module globals
segments and lastShownSegmentIndex). -/
structure TickState where
  segments : List Segment
  lastShown : Int
deriving Repr, DecidableEq

/-- The externally visible effect of one tick on the CasparCG client. -/
inductive TickAction
  | noop
  | sendTitle (lines : List (List Char))
  | clearTitle
deriving Repr, DecidableEq

/-- The gap test of the tick: nextSegmentStart is the start of the first
segment with start > t; the gap to it (infinite when there is none) exceeds
GAP_BEFORE_CLEAR_S = 2. -/
def gapToNextBig (t : ℚ) (segments : List Segment) : Bool :=
  match segments.find? (fun s => decide (t < s.start)) with
  | some s => decide ((2 : ℚ) < s.start - t)
  | none => true

/-- The server tick function: reads the current time (none models a null
OSC reading), selects the segment containing t, dispatches send or clear,
and updates lastShownSegmentIndex.  The unreachable inner none branch covers
the get? of an index that findIdx? just produced. -/
def tick (timeOpt : Option ℚ) (st : TickState) : TickState × TickAction :=
  match timeOpt with
  | none => (st, .noop)
  | some t =>
    if st.segments.isEmpty then
      if st.lastShown ≥ 0 then ({ st with lastShown := -1 }, .clearTitle)
      else (st, .noop)
    else
      match st.segments.findIdx? (fun s => decide (t ≥ s.start) && decide (t < s.stop)) with
      | some i =>
        if (i : Int) ≠ st.lastShown then
          match st.segments.get? i with
          | some seg => ({ st with lastShown := (i : Int) }, .sendTitle seg.lines)
          | none => (st, .noop)
        else (st, .noop)
      | none =>
        if st.lastShown ≥ 0 then
          if gapToNextBig t st.segments then ({ st with lastShown := -1 }, .clearTitle)
          else (st, .noop)
        else (st, .noop)

lemma findIdx?_eq_none_of_all {α : Type} (l : List α) (p : α → Bool)
    (h : ∀ x ∈ l, p x = false) : l.findIdx? p = none := by
  induction l with
  | nil => rfl
  | cons a tl ih =>
    rw [List.findIdx?_cons, h a (by simp)]
    simp [ih (fun x hx => h x (by simp [hx]))]

/-- C6: in a tick whose time t lies inside no segment, the title is cleared
(and lastShownSegmentIndex reset to -1) exactly when lastShownSegmentIndex is
nonnegative and the gap to the next segment start (infinite if none) exceeds
2 seconds; otherwise the tick changes nothing, and a null time reading
dispatches nothing at all. -/
theorem scheduler_tick_gap_clear (st : TickState) (t : ℚ)
    (hno : ∀ s ∈ st.segments, ¬(t ≥ s.start ∧ t < s.stop)) :
    tick none st = (st, TickAction.noop) ∧
    (tick (some t) st = ({ st with lastShown := -1 }, TickAction.clearTitle) ↔
      (st.lastShown ≥ 0 ∧ gapToNextBig t st.segments = true)) ∧
    (¬(st.lastShown ≥ 0 ∧ gapToNextBig t st.segments = true) →
      tick (some t) st = (st, TickAction.noop)) := by
  have hfalse : ∀ s ∈ st.segments,
      (fun s => decide (t ≥ s.start) && decide (t < s.stop)) s = false := by
    intro s hs
    have hn := hno s hs
    by_cases h1 : t ≥ s.start
    · by_cases h2 : t < s.stop
      · exact absurd ⟨h1, h2⟩ hn
      · simp [h1, h2]
    · simp [h1]
  have hidx := findIdx?_eq_none_of_all _ _ hfalse
  by_cases hemp : st.segments.isEmpty
  · have hseg : st.segments = [] := List.isEmpty_iff.mp hemp
    have hgap : gapToNextBig t st.segments = true := by
      rw [gapToNextBig, hseg]
      rfl
    have htick : tick (some t) st =
        if st.lastShown ≥ 0 then ({ st with lastShown := -1 }, TickAction.clearTitle)
        else (st, TickAction.noop) := by
      simp only [tick, hemp, if_true]
    by_cases hls : st.lastShown ≥ 0
    · rw [if_pos hls] at htick
      refine ⟨rfl, ?_, ?_⟩
      · exact ⟨fun _ => ⟨hls, hgap⟩, fun _ => htick⟩
      · intro h; exact absurd ⟨hls, hgap⟩ h
    · rw [if_neg hls] at htick
      refine ⟨rfl, ?_, fun _ => htick⟩
      constructor
      · intro h
        rw [htick] at h
        simp at h
      · intro h
        exact absurd h.1 hls
  · have htick : tick (some t) st =
        if st.lastShown ≥ 0 then
          (if gapToNextBig t st.segments then
            ({ st with lastShown := -1 }, TickAction.clearTitle)
           else (st, TickAction.noop))
        else (st, TickAction.noop) := by
      simp only [tick, hemp, if_false, hidx, Bool.false_eq_true]
    by_cases hls : st.lastShown ≥ 0
    · by_cases hgap : gapToNextBig t st.segments = true
      · rw [if_pos hls, if_pos hgap] at htick
        refine ⟨rfl, ⟨fun _ => ⟨hls, hgap⟩, fun _ => htick⟩, ?_⟩
        intro h; exact absurd ⟨hls, hgap⟩ h
      · rw [if_pos hls, if_neg hgap] at htick
        refine ⟨rfl, ?_, fun _ => htick⟩
        constructor
        · intro h
          rw [htick] at h
          simp at h
        · intro h
          exact absurd h.2 hgap
    · rw [if_neg hls] at htick
      refine ⟨rfl, ?_, fun _ => htick⟩
      constructor
      · intro h
        rw [htick] at h
        simp at h
      · intro h
        exact absurd h.1 hls

/-- Witness for C6: one segment [0, 1), lastShown 0, time 4: outside every
segment and more than 2 seconds from any next start, so the tick clears. -/
theorem scheduler_tick_gap_clear_witness :
    tick (some (4 : ℚ)) ⟨[{ start := 0, stop := 1, lines := [['A']] }], 0⟩ =
      (⟨[{ start := 0, stop := 1, lines := [['A']] }], -1⟩, TickAction.clearTitle) := by
  have hno : ∀ s ∈ ([{ start := 0, stop := 1, lines := [['A']] }] : List Segment),
      ¬((4 : ℚ) ≥ s.start ∧ (4 : ℚ) < s.stop) := by
    intro s hs
    simp only [List.mem_singleton] at hs
    subst hs
    intro hc
    exact absurd hc.2 (by norm_num)
  have h := scheduler_tick_gap_clear ⟨[{ start := 0, stop := 1, lines := [['A']] }], 0⟩
    (4 : ℚ) hno
  have hfind : List.find? (fun s : Segment => decide ((4 : ℚ) < s.start))
      [{ start := 0, stop := 1, lines := [['A']] }] = none := by
    rw [List.find?_cons_of_neg]
    · rfl
    · simp only [decide_eq_false_iff_not]
      norm_num
  have hgap : gapToNextBig (4 : ℚ) [{ start := 0, stop := 1, lines := [['A']] }] = true := by
    rw [gapToNextBig, hfind]
  exact h.2.1.mpr ⟨by norm_num, hgap⟩

/-- A parsed JSON field value, as far as the titling handler inspects it:
a string, a number, or anything else. -/
inductive JsVal
  | str (s : List Char)
  | num (q : ℚ)
  | other
deriving Repr, DecidableEq

/-- The JSON body of POST /titling: the four fields the handler reads,
each possibly absent. -/
structure TitlingBody where
  vttPath : Option JsVal := none
  path : Option JsVal := none
  timeMode : Option JsVal := none
  startAt : Option JsVal := none
deriving Repr, DecidableEq

/-- The handler's decision: respond 400 with a message, or proceed to
loadVTT with the validated arguments (a 200 response then still requires the
file read and parse to succeed). -/
inductive TitlingDecision
  | reject400 (msg : List Char)
  | load (vttPath : List Char) (timeMode : Option (List Char)) (startAt : Option ℚ)
deriving Repr, DecidableEq

/-- The JS coercion typeof startAt === number. -/
def jsNumber : Option JsVal → Option ℚ
  | some (.num q) => some q
  | _ => none

/-- The string payload of a JsVal, if any. -/
def jsStr : JsVal → Option (List Char)
  | .str s => some s
  | _ => none

/-- The POST /titling validation of the server request handler: none models
a JSON.parse failure; data.vttPath ?? data.path must be a truthy string
(the empty string is falsy, hence Missing vttPath), and timeMode, when
present, must be the string osc or autonomous. -/
def handleTitlingRequest (body : Option TitlingBody) : TitlingDecision :=
  match body with
  | none => .reject400 (String.toList "Invalid JSON")
  | some data =>
    match data.vttPath.orElse (fun _ => data.path) with
    | some (JsVal.str p) =>
      if p = [] then .reject400 (String.toList "Missing vttPath")
      else
        match data.timeMode with
        | none => .load p none (jsNumber data.startAt)
        | some tm =>
          if tm = JsVal.str (String.toList "osc") ∨
             tm = JsVal.str (String.toList "autonomous") then
            .load p (jsStr tm) (jsNumber data.startAt)
          else .reject400 (String.toList "timeMode must be \"osc\" or \"autonomous\"")
    | _ => .reject400 (String.toList "Missing vttPath")

/-- C8 counterexample: a request with a valid vttPath and timeMode
"external" is rejected with 400; the handler only accepts "osc" or
"autonomous". -/
theorem http_titling_external_rejected :
    handleTitlingRequest (some { vttPath := some (JsVal.str (String.toList "a")),
                                 timeMode := some (JsVal.str (String.toList "external")) }) =
      TitlingDecision.reject400
        (String.toList "timeMode must be \"osc\" or \"autonomous\"") := by
  decide

/-- C8 amended: the handler proceeds to load (the precondition of a 200
response) exactly when the body parses, vttPath ?? path is a non-empty
string, and timeMode is absent or the string osc or autonomous; in every
other case, including timeMode "external", it responds 400. -/
theorem http_titling_validation (body : Option TitlingBody) :
    ((∃ p tm sa, handleTitlingRequest body = TitlingDecision.load p tm sa) ↔
      (∃ data, body = some data ∧
        (∃ p, data.vttPath.orElse (fun _ => data.path) = some (JsVal.str p) ∧ p ≠ [] ∧
          (data.timeMode = none ∨
           data.timeMode = some (JsVal.str (String.toList "osc")) ∨
           data.timeMode = some (JsVal.str (String.toList "autonomous")))))) ∧
    (body = none →
      handleTitlingRequest body = TitlingDecision.reject400 (String.toList "Invalid JSON")) ∧
    ((¬ ∃ p tm sa, handleTitlingRequest body = TitlingDecision.load p tm sa) →
      ∃ msg, handleTitlingRequest body = TitlingDecision.reject400 msg) := by
  refine ⟨?_, ?_, ?_⟩
  · cases body with
    | none =>
      simp [handleTitlingRequest]
    | some data =>
      cases hv : data.vttPath.orElse (fun _ => data.path) with
      | none =>
        simp [handleTitlingRequest, hv]
      | some v =>
        cases v with
        | num q => simp [handleTitlingRequest, hv]
        | other => simp [handleTitlingRequest, hv]
        | str p =>
          by_cases hp : p = []
          · subst hp
            simp [handleTitlingRequest, hv]
          · cases htm : data.timeMode with
            | none =>
              simp only [handleTitlingRequest, hv, htm, if_neg hp]
              constructor
              · intro _
                exact ⟨data, rfl, p, hv, hp, Or.inl htm⟩
              · intro _
                exact ⟨p, none, jsNumber data.startAt, rfl⟩
            | some tm =>
              by_cases hor : tm = JsVal.str (String.toList "osc") ∨
                  tm = JsVal.str (String.toList "autonomous")
              · simp only [handleTitlingRequest, hv, htm, if_neg hp, if_pos hor]
                constructor
                · intro _
                  refine ⟨data, rfl, p, hv, hp, ?_⟩
                  rcases hor with h | h
                  · exact Or.inr (Or.inl (by rw [htm, h]))
                  · exact Or.inr (Or.inr (by rw [htm, h]))
                · intro _
                  exact ⟨p, jsStr tm, jsNumber data.startAt, rfl⟩
              · simp only [handleTitlingRequest, hv, htm, if_neg hp, if_neg hor]
                constructor
                · intro h
                  obtain ⟨_, _, _, h⟩ := h
                  cases h
                · intro h
                  obtain ⟨data2, hdata2, p2, hp2, hpne2, htm2⟩ := h
                  obtain rfl : data2 = data := by injection hdata2 with h2; exact h2.symm
                  rcases htm2 with h2 | h2 | h2
                  · rw [htm] at h2; cases h2
                  · rw [htm] at h2
                    injection h2 with h2
                    exact absurd (Or.inl h2) hor
                  · rw [htm] at h2
                    injection h2 with h2
                    exact absurd (Or.inr h2) hor
  · intro h
    subst h
    rfl
  · intro h
    cases hd : handleTitlingRequest body with
    | reject400 msg => exact ⟨msg, rfl⟩
    | load p tm sa => exact absurd ⟨p, tm, sa, hd⟩ h

/-- Witness for the amended C8: a body with vttPath "a" and timeMode
"autonomous" proceeds to load. -/
theorem http_titling_validation_witness :
    (∃ p tm sa, handleTitlingRequest
        (some { vttPath := some (JsVal.str (String.toList "a")),
                timeMode := some (JsVal.str (String.toList "autonomous")) }) =
      TitlingDecision.load p tm sa) ∧
    handleTitlingRequest
        (some { vttPath := some (JsVal.str (String.toList "a")),
                timeMode := some (JsVal.str (String.toList "autonomous")) }) =
      TitlingDecision.load (String.toList "a")
        (some (String.toList "autonomous")) none := by
  refine ⟨?_, by decide⟩
  exact (http_titling_validation
    (some { vttPath := some (JsVal.str (String.toList "a")),
            timeMode := some (JsVal.str (String.toList "autonomous")) })).1.mpr
    ⟨_, rfl, String.toList "a", by decide, by decide, by decide⟩

/-- JS String.prototype.trim on a character list. -/
def trimChars (l : List Char) : List Char :=
  ((l.dropWhile isJsSpace).reverse.dropWhile isJsSpace).reverse

/-- vtt-parser.js: content.split of CRLF-or-LF line endings: split on the
newline character and strip one trailing carriage return from each piece. -/
def splitLines (l : List Char) : List (List Char) :=
  (l.splitOn '\n').map (fun s =>
    if s.getLast? = some '\x0d' then s.dropLast else s)

/-- parseInt on a short digit string. -/
def digitsVal (ds : List Char) : Nat :=
  ds.foldl (fun a c => a * 10 + (c.toNat - '0'.toNat)) 0

/-- Match exactly n digits (the regexp d-braces-n), returning their value
and the rest of the line. -/
def parseDigits (n : Nat) (l : List Char) : Option (Nat × List Char) :=
  if (l.take n).length = n ∧ (l.take n).all Char.isDigit then
    some (digitsVal (l.take n), l.drop n)
  else none

/-- Match one literal character. -/
def expectChar (c : Char) : List Char → Option (List Char)
  | x :: rest => if x = c then some rest else none
  | [] => none

/-- Match HH:MM:SS.mmm and convert to seconds (toSeconds with hours). -/
def parseHMS (l : List Char) : Option (ℚ × List Char) := do
  let (h, r1) ← parseDigits 2 l
  let r2 ← expectChar ':' r1
  let (m, r3) ← parseDigits 2 r2
  let r4 ← expectChar ':' r3
  let (s, r5) ← parseDigits 2 r4
  let r6 ← expectChar '.' r5
  let (ms, r7) ← parseDigits 3 r6
  pure (((h * 3600 + m * 60 + s : Nat) : ℚ) + ((ms : Nat) : ℚ) / 1000, r7)

/-- Match MM:SS.mmm (the optional hours group absent). -/
def parseMS (l : List Char) : Option (ℚ × List Char) := do
  let (m, r1) ← parseDigits 2 l
  let r2 ← expectChar ':' r1
  let (s, r3) ← parseDigits 2 r2
  let r4 ← expectChar '.' r3
  let (ms, r5) ← parseDigits 3 r4
  pure (((m * 60 + s : Nat) : ℚ) + ((ms : Nat) : ℚ) / 1000, r5)

/-- One timestamp of the cue time line: the regexp tries the optional hours
group first and backtracks to the short form, which this deterministic
parser mirrors. -/
def parseTimePart (l : List Char) : Option (ℚ × List Char) :=
  match parseHMS l with
  | some r => some r
  | none => parseMS l

/-- vtt-parser.js timeRegex applied to one line (the regexp is anchored at
the start and ignores anything after the second timestamp): start and end
seconds of a cue time line. -/
def parseTimeLine (line : List Char) : Option (ℚ × ℚ) := do
  let (start, r1) ← parseTimePart line
  let r2 := r1.dropWhile isJsSpace
  let r3 ← expectChar '-' r2
  let r4 ← expectChar '-' r3
  let r5 ← expectChar '>' r4
  let r6 := r5.dropWhile isJsSpace
  let (stop, _) ← parseTimePart r6
  pure (start, stop)

/-- The whitespace-run collapse of replace with a global s-plus regexp:
the flag records whether the previous character was whitespace. -/
def collapseGo : Bool → List Char → List Char
  | _, [] => []
  | prevSpace, c :: rest =>
    if isJsSpace c then
      if prevSpace then collapseGo true rest else ' ' :: collapseGo true rest
    else c :: collapseGo false rest

/-- textLines.join with a single space. -/
def joinWithSpace : List (List Char) → List Char
  | [] => []
  | [l] => l
  | l :: rest => l ++ ' ' :: joinWithSpace rest

/-- The cue text assembly of vtt-parser.js: join the collected lines with
spaces, collapse whitespace runs and trim. -/
def assembleText (textLines : List (List Char)) : List Char :=
  trimChars (collapseGo false (joinWithSpace textLines))

/-- The while loop of parseVTT.  The loop index only moves forward, so the
number of remaining lines bounds the iterations; the fuel argument carries
that bound and is initialised to the line count.  Lines before the first
time line fall into the none branch and are skipped, which also covers the
header-skipping loop of the source. -/
def parseCuesAux : Nat → List (List Char) → List Cue
  | 0, _ => []
  | _, [] => []
  | fuel + 1, line :: rest =>
    match parseTimeLine line with
    | none => parseCuesAux fuel rest
    | some se =>
      let textLines := (rest.takeWhile (fun l => trimChars l ≠ [])).map trimChars
      let rest2 := (rest.dropWhile (fun l => trimChars l ≠ [])).drop 1
      let text := assembleText textLines
      if text = [] then parseCuesAux fuel rest2
      else { start := se.1, stop := se.2, text := text } :: parseCuesAux fuel rest2

/-- vtt-parser.js parseVTT. -/
def parseVTT (content : List Char) : List Cue :=
  parseCuesAux (splitLines content).length (splitLines content)

lemma parseCuesAux_text_ne_nil :
    ∀ (fuel : Nat) (lines : List (List Char)) (cue : Cue),
      cue ∈ parseCuesAux fuel lines → cue.text ≠ [] := by
  intro fuel
  induction fuel with
  | zero =>
    intro lines cue h
    cases lines with
    | nil => cases h
    | cons a t => cases h
  | succ fuel ih =>
    intro lines cue h
    cases lines with
    | nil => cases h
    | cons line rest =>
      simp only [parseCuesAux] at h
      cases hpt : parseTimeLine line with
      | none =>
        rw [hpt] at h
        exact ih rest cue h
      | some se =>
        rw [hpt] at h
        have h2 : cue ∈
            (if assembleText ((rest.takeWhile (fun l => trimChars l ≠ [])).map trimChars) = []
             then parseCuesAux fuel ((rest.dropWhile (fun l => trimChars l ≠ [])).drop 1)
             else { start := se.1, stop := se.2,
                    text := assembleText
                      ((rest.takeWhile (fun l => trimChars l ≠ [])).map trimChars) } ::
                  parseCuesAux fuel ((rest.dropWhile (fun l => trimChars l ≠ [])).drop 1)) := h
        by_cases htext :
            assembleText ((rest.takeWhile (fun l => trimChars l ≠ [])).map trimChars) = []
        · rw [if_pos htext] at h2
          exact ih _ cue h2
        · rw [if_neg htext] at h2
          rcases List.mem_cons.mp h2 with h3 | h3
          · subst h3
            exact htext
          · exact ih _ cue h3

/-- C9 counterexample: a cue whose end timestamp precedes its start is
returned as-is; the parser never checks end > start.  (The parsed rationals
are written in the exact shape the parser computes them in.) -/
theorem vtt_parse_end_not_after_start :
    parseVTT (String.toList "00:00:02.000 --> 00:00:01.000\nHi") =
      [{ start := ((2 : ℕ) : ℚ) + ((0 : ℕ) : ℚ) / 1000,
         stop := ((1 : ℕ) : ℚ) + ((0 : ℕ) : ℚ) / 1000,
         text := ['H', 'i'] }] ∧
    ¬(((1 : ℕ) : ℚ) + ((0 : ℕ) : ℚ) / 1000 >
      ((2 : ℕ) : ℚ) + ((0 : ℕ) : ℚ) / 1000) := by
  constructor
  · rfl
  · norm_num

/-- C9 amended: every cue returned by parseVTT has non-empty text (the text
is already trimmed when assembled); the invariant end > start is NOT
enforced by the parser and can be violated by the input. -/
theorem vtt_parse_text_nonempty (content : List Char) :
    ∀ cue ∈ parseVTT content, cue.text ≠ [] := by
  intro cue h
  exact parseCuesAux_text_ne_nil _ _ cue h

/-- Witness for the amended C9 on a concrete well-formed input. -/
theorem vtt_parse_text_nonempty_witness :
    (({ start := ((1 : ℕ) : ℚ) + ((0 : ℕ) : ℚ) / 1000,
        stop := ((2 : ℕ) : ℚ) + ((0 : ℕ) : ℚ) / 1000,
        text := ['H', 'i'] } : Cue) ∈
      parseVTT (String.toList "00:00:01.000 --> 00:00:02.000\nHi")) ∧
    (['H', 'i'] : List Char) ≠ [] := by
  have hv : parseVTT (String.toList "00:00:01.000 --> 00:00:02.000\nHi") =
      [({ start := ((1 : ℕ) : ℚ) + ((0 : ℕ) : ℚ) / 1000,
          stop := ((2 : ℕ) : ℚ) + ((0 : ℕ) : ℚ) / 1000,
          text := ['H', 'i'] } : Cue)] := rfl
  have hmem : (({ start := ((1 : ℕ) : ℚ) + ((0 : ℕ) : ℚ) / 1000,
                  stop := ((2 : ℕ) : ℚ) + ((0 : ℕ) : ℚ) / 1000,
                  text := ['H', 'i'] } : Cue) ∈
        parseVTT (String.toList "00:00:01.000 --> 00:00:02.000\nHi")) := by
    rw [hv]
    simp
  exact ⟨hmem,
    vtt_parse_text_nonempty (String.toList "00:00:01.000 --> 00:00:02.000\nHi") _ hmem⟩
